import Mathlib

/-!
Shallow embedding of the core of mandelbrot-gtk-rs (src/mandel_image.rs,
src/colorings.rs, src/lib.rs) and proofs about it.

Modelling conventions:
* Rust `f64` is modelled as `ℚ` (exact arithmetic standing in for the
  floating-point field; every property proved here depends only on the
  control flow and on arithmetic identities that are independent of
  rounding, never on any rounding-specific behaviour).
* Rust `u32`/`usize` are modelled as `Nat`; none of the verified code paths
  perform wrapping arithmetic (the one cast `usize as i32` is modelled
  exactly by `asI32`).
* A Rust panic is modelled by `Option.none`; a function that cannot panic on
  the modelled path returns `some`.
* Byte buffers (`&mut [u8]` / `Vec<u8>`) are modelled as `List Nat`, each
  entry a byte value.
-/

/-- The five coloring-scheme variants of `src/colorings.rs`
(`all_colorings` boxes exactly these, in this order).  The trait object
`Box<dyn ColorFromMandel>` / `Box<dyn Coloring>` used by the fill engine is a
closed set in this program, so it is embedded as an inductive type. -/
inductive Coloring where
  | rgb18 : Coloring
  | rgbAlternating : Coloring
  | redBlue : Coloring
  | blackWhite : Coloring
  | oldBlackWhite : Coloring
deriving DecidableEq, Repr

/-- `Rgb18::get_color` (src/colorings.rs:13-38): fixed color `0x000000` once
`max <= v`, otherwise an 18-entry lookup keyed by `v % 18`. -/
def rgb18_get_color (v max : Nat) : Nat :=
  if max ≤ v then 0x000000
  else match v % 18 with
  | 0 => 0xff3f3f
  | 1 => 0xff7f3f
  | 2 => 0xffbf3f
  | 3 => 0xffff3f
  | 4 => 0xbfff3f
  | 5 => 0x7fff3f
  | 6 => 0x3fff3f
  | 7 => 0x3fff7f
  | 8 => 0x3fffbf
  | 9 => 0x3fffff
  | 10 => 0x3fbfff
  | 11 => 0x3f7fff
  | 12 => 0x3f3fff
  | 13 => 0x7f3fff
  | 14 => 0xbf3fff
  | 15 => 0xff3fff
  | 16 => 0xff3fbf
  | _ => 0xff3f7f

/-- `RedBlue::get_color` (src/colorings.rs:49-72): fixed color `0x404040` once
`max <= v`, otherwise a 16-entry lookup keyed by `v % 16`. -/
def redBlue_get_color (v max : Nat) : Nat :=
  if max ≤ v then 0x404040
  else match v % 16 with
  | 0 => 0x000000
  | 1 => 0x400000
  | 2 => 0x800000
  | 3 => 0xc00000
  | 4 => 0xff0000
  | 5 => 0xff0040
  | 6 => 0xff0080
  | 7 => 0xff00c0
  | 8 => 0xff00ff
  | 9 => 0xc000ff
  | 10 => 0x8000ff
  | 11 => 0x4000ff
  | 12 => 0x0000ff
  | 13 => 0x0000c0
  | 14 => 0x000080
  | _ => 0x000040

/-- `RgbAlternating::get_color` (src/colorings.rs:83-93). -/
def rgbAlternating_get_color (v max : Nat) : Nat :=
  if max ≤ v then 0x000000
  else match v % 3 with
  | 0 => 0xff0000
  | 1 => 0x00ff00
  | _ => 0x0000ff

/-- `BlackWhite::get_color` (src/colorings.rs:103-113).  Note that the cap
color `0x808080` is produced only when `v == max`; for `v > max` the function
falls through to the parity coloring. -/
def blackWhite_get_color (v max : Nat) : Nat :=
  if v = max then 0x808080
  else if v % 2 = 1 then 0xffffff else 0x0

/-- `OldBlackWhite::get_color` (src/colorings.rs:124-130): ignores `max`
entirely. -/
def oldBlackWhite_get_color (v _max : Nat) : Nat :=
  if v % 2 = 1 then 0xffffff else 0x0

/-- Dynamic dispatch of `Coloring::get_color` / `ColorFromMandel::get` over
the closed variant set. -/
def Coloring.get_color : Coloring → Nat → Nat → Nat
  | .rgb18, v, max => rgb18_get_color v max
  | .rgbAlternating, v, max => rgbAlternating_get_color v max
  | .redBlue, v, max => redBlue_get_color v max
  | .blackWhite, v, max => blackWhite_get_color v max
  | .oldBlackWhite, v, max => oldBlackWhite_get_color v max

/-- `u32::to_ne_bytes` on a little-endian host (x86-64): the four bytes of a
32-bit color value, least significant first. -/
def to_ne_bytes (c : Nat) : List Nat :=
  [c % 256, c / 256 % 256, c / 65536 % 256, c / 16777216 % 256]

theorem to_ne_bytes_length (c : Nat) : (to_ne_bytes c).length = 4 := rfl

/-- `Mapping` (src/mandel_image.rs:9-24).  `f64` fields are modelled as `ℚ`,
`u32`/`usize` fields as `Nat`. -/
structure Mapping where
  cx : ℚ
  cy : ℚ
  scale : ℚ
  iteration_depth : Nat
  win_width : Nat
  win_height : Nat
deriving DecidableEq, Repr

/-- `Mapping::new_for_size` (src/mandel_image.rs:27-36). -/
def Mapping.new_for_size (win_sz : Nat) : Mapping :=
  { cx := 0, cy := 0, scale := 4 / (win_sz : ℚ), iteration_depth := 100,
    win_width := win_sz, win_height := win_sz }

/-- `Mapping::is_valid` (src/mandel_image.rs:37-45); `max = i32::MAX as usize`. -/
def Mapping.is_valid (m : Mapping) : Bool :=
  decide (0 < m.win_width) && decide (m.win_width ≤ 2147483647)
    && decide (0 < m.win_height) && decide (m.win_height ≤ 2147483647)
    && decide (m.scale > 0) && decide (m.iteration_depth > 0)

/-- `WinToMandel` (src/mandel_image.rs:66-70). -/
structure WinToMandel where
  x0 : ℚ
  y0 : ℚ
  f : ℚ
deriving DecidableEq, Repr

/-- `WinToMandel::from_mapping` (src/mandel_image.rs:73-78). -/
def WinToMandel.from_mapping (mapping_params : Mapping) : WinToMandel :=
  { x0 := mapping_params.cx - (mapping_params.scale * (mapping_params.win_width : ℚ)) / 2
    y0 := mapping_params.cy + (mapping_params.scale * (mapping_params.win_height : ℚ)) / 2
    f := mapping_params.scale }

/-- `WinToMandel::cvt` (src/mandel_image.rs:79-81). -/
def WinToMandel.cvt (c : WinToMandel) (wx wy : Nat) : ℚ × ℚ :=
  (c.x0 + (wx : ℚ) * c.f, c.y0 - (wy : ℚ) * c.f)

/-- `WinToMandel::cvt_x` (src/mandel_image.rs:82-84). -/
def WinToMandel.cvt_x (c : WinToMandel) (wx : Nat) : ℚ :=
  c.x0 + (wx : ℚ) * c.f

/-- `WinToMandel::cvt_y` (src/mandel_image.rs:85-87). -/
def WinToMandel.cvt_y (c : WinToMandel) (wy : Nat) : ℚ :=
  c.y0 - (wy : ℚ) * c.f

/-- One step of the quadratic map iterated by `mandel_value`
(src/mandel_image.rs:95-97): from the pair `(r, i)` compute
`(r*r - i*i + x, 2*r*i + y)` — both components from the old values, exactly
as the Rust assignment order (`rnext` first, then `i` from the old `r`). -/
def mandel_step (x y : ℚ) (p : ℚ × ℚ) : ℚ × ℚ :=
  (p.1 * p.1 - p.2 * p.2 + x, 2 * p.1 * p.2 + y)

/-- Squared magnitude `i*i + r*r` tested against `4.0`
(src/mandel_image.rs:98). -/
def mag_sq (p : ℚ × ℚ) : ℚ := p.2 * p.2 + p.1 * p.1

/-- The `while iter < max` loop of `mandel_value` (src/mandel_image.rs:94-102),
with `fuel = max - iter` remaining iterations: compute the next `(r, i)`; if
its squared magnitude reaches `4.0`, break, returning the number of completed
iterations so far (here: `0` more); otherwise count one completed iteration
and continue.  The structural fuel makes the bound of at most `max` loop
iterations part of the definition. -/
def mandel_loop (x y : ℚ) : Nat → ℚ → ℚ → Nat
  | 0, _, _ => 0
  | fuel + 1, r, i =>
    let rnext := r * r - i * i + x
    let inext := 2 * r * i + y
    if inext * inext + rnext * rnext ≥ 4 then 0
    else mandel_loop x y fuel rnext inext + 1

/-- `mandel_value` (src/mandel_image.rs:90-104): run the loop from
`iter = 0, r = 0.0, i = 0.0`. -/
def mandel_value (x y : ℚ) (max : Nat) : Nat :=
  mandel_loop x y max 0 0

/-- The bytes one pixel row emits: for each column `wx` in `[0, w)`, the four
native-endian bytes of the pixel's color (body of the `for wx in 0..w` loop,
src/mandel_image.rs:121-130). -/
def row_bytes (cp : Coloring) (conv : WinToMandel) (w maxv : Nat) (y : ℚ) : List Nat :=
  (List.range w).flatMap fun wx =>
    to_ne_bytes (cp.get_color (mandel_value (conv.cvt_x wx) y maxv) maxv)

/-- Writing a byte stream into a row through the row's mutable iterator
(src/mandel_image.rs:120-129): bytes are written to successive positions; once
the iterator is exhausted (`iter.next()` returns `None`) remaining bytes are
silently discarded; positions the stream does not reach keep their old
values. -/
def write_row (line bytes : List Nat) : List Nat :=
  bytes.take line.length ++ line.drop bytes.length

/-- The `for dy in 0..(h_end - h_start)` loop of `fill_mandel_image_partial`
(src/mandel_image.rs:117-131), processing `n` remaining rows, the next row
having absolute index `a`.  Each step takes the row slice
`data[dy*ustride..(dy+1)*ustride]`; if the buffer is too short for that slice
Rust panics (`none` here).  On success the function returns `true`
(src/mandel_image.rs:132) — that is the only non-panicking return value. -/
def fill_rows (cp : Coloring) (conv : WinToMandel) (w maxv ustride : Nat) :
    List Nat → Nat → Nat → Option (Bool × List Nat)
  | data, 0, _ => some (true, data)
  | data, n + 1, a =>
    if ustride ≤ data.length then
      match fill_rows cp conv w maxv ustride (data.drop ustride) n (a + 1) with
      | none => none
      | some (b, rest) =>
        some (b, write_row (data.take ustride) (row_bytes cp conv w maxv (conv.cvt_y a)) ++ rest)
    else none

/-- The buffer `fill_rows` produces when it does not panic (total companion
function used to state and prove properties of the result). -/
def fill_spec_rows (cp : Coloring) (conv : WinToMandel) (w maxv ustride : Nat) :
    List Nat → Nat → Nat → List Nat
  | data, 0, _ => data
  | data, n + 1, a =>
    write_row (data.take ustride) (row_bytes cp conv w maxv (conv.cvt_y a)) ++
      fill_spec_rows cp conv w maxv ustride (data.drop ustride) n (a + 1)

/-- `fill_mandel_image_partial` (src/mandel_image.rs:106-134); the name is
shortened here.  Fills rows `[h_start, h_end)` of the window into `data`. -/
def fill_mandel_image_part (data : List Nat) (cp : Coloring) (conv : WinToMandel)
    (w h_start h_end maxv ustride : Nat) : Option (Bool × List Nat) :=
  fill_rows cp conv w maxv ustride data (h_end - h_start) h_start

/-- `fill_mandel_image` (src/mandel_image.rs:136-147): single-threaded fill of
the whole image, rows `[0, h)`. -/
def fill_mandel_image (data : List Nat) (cp : Coloring) (w h maxv ustride : Nat)
    (mparams : Mapping) : Option (Bool × List Nat) :=
  fill_mandel_image_part data cp (WinToMandel.from_mapping mparams) w 0 h maxv ustride

/-- The split-computing loop of `fill_mandel_image_parallel`
(src/mandel_image.rs:162-174): `n` pushes remaining, next value `split`,
`extra` bands still to be enlarged by one row. -/
def splits_go (step : Nat) : Nat → Nat → Nat → List Nat
  | 0, _, _ => []
  | n + 1, split, extra =>
    split ::
      (if 0 < extra then splits_go step n (split + step + 1) (extra - 1)
       else splits_go step n (split + step) extra)

/-- The list of band start rows `fill_mandel_image_parallel` computes for
height `h` and `p` workers (`h_step = h / p`, `h_extra = h % p`,
src/mandel_image.rs:162-174).  The spec calls this `compute_splits(h, p)`. -/
def compute_splits (h p : Nat) : List Nat :=
  splits_go (h / p) p 0 (h % p)

/-- The `while let Some(s) = splits.pop()` loop of `fill_mandel_image_parallel`
(src/mandel_image.rs:177-199), processing the splits in reverse (largest
first); `data` holds rows `[0, endRow)`, `nstat` is the number of per-band
status slots left in the fixed `vec![true; 8]`.  Each iteration splits the
buffer at `ustride * s` (panic — `none` — if that exceeds the buffer length),
splits one status slot off (`split_at_mut(1)` panics when none is left), and
fills rows `[s, endRow)` into the tail part.  The returned `Bool` is the
conjunction of the band statuses (src/mandel_image.rs:200-204; the unused
slots of the status vector stay `true`, so they do not affect the
conjunction). -/
def par_loop (cp : Coloring) (conv : WinToMandel) (w maxv ustride : Nat) :
    List Nat → List Nat → Nat → Nat → Option (Bool × List Nat)
  | [], data, _, _ => some (true, data)
  | s :: rest, data, endRow, nstat =>
    if ustride * s ≤ data.length then
      if nstat = 0 then none
      else
        match fill_rows cp conv w maxv ustride (data.drop (ustride * s)) (endRow - s) s with
        | none => none
        | some (b1, part) =>
          match par_loop cp conv w maxv ustride rest (data.take (ustride * s)) s (nstat - 1) with
          | none => none
          | some (b2, front) => some (b1 && b2, front ++ part)
    else none

/-- `fill_mandel_image_parallel` (src/mandel_image.rs:149-206).  `parCount`
models `pool.thread_count()`.  A pool with zero threads makes `h / par_count`
panic (`none`); otherwise the band starts are computed and processed in pop
order with the fixed status vector of length 8. -/
def fill_mandel_image_parallel (parCount : Nat) (data : List Nat) (cp : Coloring)
    (w h maxv ustride : Nat) (mparams : Mapping) : Option (Bool × List Nat) :=
  if parCount = 0 then none
  else
    par_loop cp (WinToMandel.from_mapping mparams) w maxv ustride
      (compute_splits h parCount).reverse data h 8

/-- Modelled from cairo (a dependency, not part of this repository):
`Format::Rgb24.stride_for_width` as used at src/mandel_image.rs:213.  Rgb24
pixels occupy 32 bits; cairo rejects widths for which the stride computation
would overflow a signed 32-bit int (`width > (i32::MAX - 7) / 32`) and
otherwise returns `4 * width` (already 4-byte aligned). -/
def stride_for_width (w : Nat) : Option Nat :=
  if w ≤ 67108862 then some (4 * w) else none

/-- `MandelReq` (src/lib.rs:12-15). -/
structure MandelReq where
  params : Mapping
  coloring : Coloring
deriving DecidableEq, Repr

/-- `MandelReply` (src/lib.rs:17-22). -/
structure MandelReply where
  result : Option (List Nat)
  width : Int
  height : Int
  stride : Int
deriving DecidableEq, Repr

/-- The cast `usize as i32` (two's-complement truncation), as used for the
reply's `width`/`height` fields (src/mandel_image.rs:296-297). -/
def asI32 (n : Nat) : Int :=
  if n % 4294967296 < 2147483648 then (n % 4294967296 : Int)
  else (n % 4294967296 : Int) - 4294967296

/-- `make_mandel_image` (src/mandel_image.rs:208-252): reject an invalid
mapping with `(None, 0)` before any buffer is allocated or any fill code runs;
reject a failed stride computation the same way; otherwise allocate a
zero-filled buffer of `h * ustride` bytes and run the parallel fill when
`h >= pool.thread_count()`, the single-threaded fill otherwise.  The outer
`none` models a panic escaping the call. -/
def make_mandel_image (request : MandelReq) (parCount : Nat) :
    Option (Option (List Nat) × Nat) :=
  if request.params.is_valid then
    match stride_for_width request.params.win_width with
    | none => some (none, 0)
    | some stride =>
      let w := request.params.win_width
      let h := request.params.win_height
      let ustride := stride
      let maxv := request.params.iteration_depth
      let surface : List Nat := List.replicate (h * ustride) 0
      let success :=
        if parCount ≤ h then
          fill_mandel_image_parallel parCount surface request.coloring w h maxv ustride
            request.params
        else
          fill_mandel_image surface request.coloring w h maxv ustride request.params
      match success with
      | none => none
      | some (true, buf) => some (some buf, stride)
      | some (false, _) => some (none, 0)
  else some (none, 0)

/-- `replace_by_last_request` (src/mandel_image.rs:254-267): drain the request
channel with `try_recv`, replacing `available` with each queued request in
arrival order, until the channel reports empty.  Returns the final `available`
slot together with the (always empty) remaining queue. -/
def replace_by_last_request (available : Option MandelReq) :
    List MandelReq → Option MandelReq × List MandelReq
  | [] => (available, [])
  | new_req :: rest => replace_by_last_request (some new_req) rest

/-- Computing one request and building its reply — the tail of the `producer`
loop body (src/mandel_image.rs:292-299): run `make_mandel_image` and send one
`MandelReply` whose fields come from the request actually computed.  `none`
models a panic escaping `make_mandel_image`; otherwise the result pairs the
rendered request with the reply sent for it. -/
def render_request (parCount : Nat) (request : MandelReq) :
    Option (MandelReq × MandelReply) :=
  match make_mandel_image request parCount with
  | none => none
  | some (data, stride) =>
    some (request,
      { result := data, width := asI32 request.params.win_width,
        height := asI32 request.params.win_height, stride := Int.ofNat stride })

/-- One iteration of the `producer` loop (src/mandel_image.rs:281-300) started
with an empty slot and the given requests already queued: `recv_blocking` the
first request (an empty, closed channel ends the loop: `none`), drain the rest
keeping only the last (`replace_by_last_request`), `take().unwrap()` the slot
(the `none` arm is the unreachable unwrap panic), then render it and send
exactly one reply. -/
def producer_step (parCount : Nat) (queue : List MandelReq) :
    Option (MandelReq × MandelReply) :=
  match queue with
  | [] => none
  | request :: rest =>
    match (replace_by_last_request (some request) rest).1 with
    | none => none
    | some req => render_request parCount req

/-- Outcome of a channel send operation. -/
inductive SendOutcome where
  | delivered : SendOutcome
  | blocked : SendOutcome
  | droppedClosed : SendOutcome
deriving DecidableEq, Repr

/-- Modelled from async_channel (a dependency, not part of this repository):
`Sender::send_blocking` on a bounded channel — if the channel is closed the
send returns `Err` immediately (the producer discards the `Result` with
`let _ =`, so the reply is dropped without a panic); if the channel has spare
capacity the message is delivered; if the channel is full the call blocks
until the receiver makes room. -/
def send_blocking (closed : Bool) (queueLen cap : Nat) : SendOutcome :=
  if closed then SendOutcome.droppedClosed
  else if queueLen < cap then SendOutcome.delivered
  else SendOutcome.blocked

/-- The reply channel is created with `async_channel::bounded(1)`
(src/gui.rs:254). -/
def reply_channel_capacity : Nat := 1

/-- The producer's reply send (src/mandel_image.rs:294-299) against the
capacity-1 reply channel in the given channel state. -/
def producer_reply_send (closed : Bool) (queueLen : Nat) : SendOutcome :=
  send_blocking closed queueLen reply_channel_capacity

theorem write_row_length (line bytes : List Nat) :
    (write_row line bytes).length = line.length := by
  simp [write_row]
  omega

theorem row_bytes_length (cp : Coloring) (conv : WinToMandel) (w maxv : Nat) (y : ℚ) :
    (row_bytes cp conv w maxv y).length = 4 * w := by
  simp [row_bytes, List.length_flatMap, Function.comp_def, to_ne_bytes,
    List.map_const', List.sum_replicate, smul_eq_mul, Nat.mul_comm]

theorem fill_spec_rows_length (cp : Coloring) (conv : WinToMandel) (w maxv ustride : Nat)
    (data : List Nat) (n a : Nat) :
    (fill_spec_rows cp conv w maxv ustride data n a).length = data.length := by
  induction n generalizing data a with
  | zero => rfl
  | succ n ih =>
    simp [fill_spec_rows, write_row_length, ih, List.length_take, List.length_drop]
    omega

theorem fill_rows_eq_spec (cp : Coloring) (conv : WinToMandel) (w maxv ustride : Nat)
    (data : List Nat) (n a : Nat) (hle : n * ustride ≤ data.length) :
    fill_rows cp conv w maxv ustride data n a =
      some (true, fill_spec_rows cp conv w maxv ustride data n a) := by
  induction n generalizing data a with
  | zero => rfl
  | succ n ih =>
    rw [Nat.succ_mul] at hle
    have h1 : ustride ≤ data.length := by omega
    have h2 : n * ustride ≤ (data.drop ustride).length := by
      rw [List.length_drop]; omega
    simp only [fill_rows, h1, if_pos, ih (data.drop ustride) (a + 1) h2, fill_spec_rows]

theorem fill_rows_none (cp : Coloring) (conv : WinToMandel) (w maxv ustride : Nat)
    (data : List Nat) (n a : Nat) (hlt : data.length < n * ustride) :
    fill_rows cp conv w maxv ustride data n a = none := by
  induction n generalizing data a with
  | zero => simp at hlt
  | succ n ih =>
    rw [Nat.succ_mul] at hlt
    by_cases h1 : ustride ≤ data.length
    · have h2 : (data.drop ustride).length < n * ustride := by
        rw [List.length_drop]; omega
      simp only [fill_rows, h1, if_pos, ih (data.drop ustride) (a + 1) h2]
    · simp only [fill_rows, h1, if_false]

theorem fill_spec_rows_append (cp : Coloring) (conv : WinToMandel) (w maxv ustride : Nat)
    (front back : List Nat) (m k a : Nat) (hf : front.length = m * ustride) :
    fill_spec_rows cp conv w maxv ustride (front ++ back) (m + k) a =
      fill_spec_rows cp conv w maxv ustride front m a ++
        fill_spec_rows cp conv w maxv ustride back k (a + m) := by
  induction m generalizing front a with
  | zero =>
    have : front = [] := List.length_eq_zero.mp (by simpa using hf)
    subst this
    simp [fill_spec_rows]
  | succ m ih =>
    rw [Nat.succ_mul] at hf
    have h1 : ustride ≤ front.length := by omega
    have h2 : (front.drop ustride).length = m * ustride := by
      rw [List.length_drop]; omega
    have hms : m + 1 + k = (m + k) + 1 := by omega
    rw [hms]
    simp only [fill_spec_rows, List.take_append_of_le_length h1,
      List.drop_append_of_le_length h1, ih (front.drop ustride) (a + 1) h2]
    have ham : a + 1 + m = a + (m + 1) := by omega
    rw [ham, List.append_assoc]

theorem fill_spec_rows_frame_tail (cp : Coloring) (conv : WinToMandel) (w maxv ustride : Nat)
    (data : List Nat) (n a pos : Nat) (hle : n * ustride ≤ data.length)
    (hpos : n * ustride ≤ pos) :
    (fill_spec_rows cp conv w maxv ustride data n a)[pos]? = data[pos]? := by
  induction n generalizing data a pos with
  | zero => rfl
  | succ n ih =>
    rw [Nat.succ_mul] at hle hpos
    have h1 : ustride ≤ data.length := by omega
    have hW : (write_row (data.take ustride)
        (row_bytes cp conv w maxv (conv.cvt_y a))).length = ustride := by
      rw [write_row_length, List.length_take]; omega
    have h2 : n * ustride ≤ (data.drop ustride).length := by
      rw [List.length_drop]; omega
    have h3 : n * ustride ≤ pos - ustride := by omega
    rw [fill_spec_rows, List.getElem?_append_right (by omega : _ ≤ pos),
      hW, ih (data.drop ustride) (a + 1) (pos - ustride) h2 h3, List.getElem?_drop]
    congr 1
    omega

theorem fill_spec_rows_frame_pad (cp : Coloring) (conv : WinToMandel) (w maxv ustride : Nat)
    (data : List Nat) (n a dy j : Nat) (hle : n * ustride ≤ data.length)
    (hdy : dy < n) (hj1 : 4 * w ≤ j) (hj2 : j < ustride) :
    (fill_spec_rows cp conv w maxv ustride data n a)[dy * ustride + j]? =
      data[dy * ustride + j]? := by
  induction n generalizing data a dy with
  | zero => omega
  | succ n ih =>
    rw [Nat.succ_mul] at hle
    have h1 : ustride ≤ data.length := by omega
    have hW : (write_row (data.take ustride)
        (row_bytes cp conv w maxv (conv.cvt_y a))).length = ustride := by
      rw [write_row_length, List.length_take]; omega
    match dy with
    | 0 =>
      have hjW : (0 : Nat) * ustride + j = j := by omega
      rw [fill_spec_rows, hjW, List.getElem?_append_left (by omega),
        write_row, List.getElem?_append_right
          (by rw [List.length_take, row_bytes_length]; omega),
        List.length_take, row_bytes_length]
      rw [List.length_take]
      have hXj : j - ustride ⊓ data.length ⊓ (4 * w) = j - 4 * w := by omega
      rw [hXj, List.getElem?_drop, List.getElem?_take]
      have hadd : 4 * w + (j - 4 * w) = j := by omega
      rw [hadd, if_pos hj2]
    | dy + 1 =>
      have h2 : n * ustride ≤ (data.drop ustride).length := by
        rw [List.length_drop]; omega
      have hpos : (dy + 1) * ustride + j = ustride + (dy * ustride + j) := by
        rw [Nat.succ_mul]; omega
      rw [fill_spec_rows, hpos, List.getElem?_append_right (by omega), hW,
        Nat.add_sub_cancel_left,
        ih (data.drop ustride) (a + 1) dy h2 (by omega), List.getElem?_drop]

/-- Closed form of the band start rows: band `i` starts at row
`i * (h / p) + min i (h % p)` — the first `h % p` bands get `h / p + 1` rows,
the rest `h / p` rows. -/
def band_start (h p i : Nat) : Nat := i * (h / p) + min i (h % p)

theorem splits_go_length (step n s e : Nat) : (splits_go step n s e).length = n := by
  induction n generalizing s e with
  | zero => rfl
  | succ n ih =>
    by_cases he : 0 < e
    · simp [splits_go, he, ih]
    · simp [splits_go, he, ih]

theorem splits_go_getElem? (step n s e i : Nat) (hi : i < n) :
    (splits_go step n s e)[i]? = some (s + i * step + min i e) := by
  induction n generalizing s e i with
  | zero => omega
  | succ n ih =>
    match i with
    | 0 => simp [splits_go]
    | i + 1 =>
      by_cases he : 0 < e
      · rw [splits_go, if_pos he, List.getElem?_cons_succ, ih (s + step + 1) (e - 1) i (by omega)]
        congr 1
        rw [Nat.succ_mul]
        omega
      · rw [splits_go, if_neg he, List.getElem?_cons_succ, ih (s + step) e i (by omega)]
        congr 1
        rw [Nat.succ_mul]
        omega

theorem compute_splits_length (h p : Nat) : (compute_splits h p).length = p :=
  splits_go_length _ _ _ _

theorem compute_splits_getElem? (h p i : Nat) (hi : i < p) :
    (compute_splits h p)[i]? = some (band_start h p i) := by
  rw [compute_splits, splits_go_getElem? _ _ _ _ _ hi, band_start, Nat.zero_add]

theorem band_start_mono (h p : Nat) {i j : Nat} (hij : i ≤ j) :
    band_start h p i ≤ band_start h p j := by
  have h1 : i * (h / p) ≤ j * (h / p) := Nat.mul_le_mul_right _ hij
  simp only [band_start]
  omega

theorem band_start_top (h p : Nat) (hp : 0 < p) : band_start h p p = h := by
  have h1 : h % p < p := Nat.mod_lt _ hp
  have h2 : p * (h / p) + h % p = h := Nat.div_add_mod h p
  simp only [band_start, Nat.mul_comm p (h / p)] at *
  omega

theorem band_start_le (h p : Nat) (hp : 0 < p) {i : Nat} (hi : i ≤ p) :
    band_start h p i ≤ h := by
  have := band_start_mono h p hi
  rw [band_start_top h p hp] at this
  exact this

theorem band_start_strict_mono (h p : Nat) (hq : 0 < h / p) {i j : Nat} (hij : i < j) :
    band_start h p i < band_start h p j := by
  have h1 : (i + 1) * (h / p) ≤ j * (h / p) := Nat.mul_le_mul_right _ hij
  rw [Nat.succ_mul] at h1
  simp only [band_start]
  omega

theorem compute_splits_sorted (h p : Nat) :
    (compute_splits h p).Pairwise (fun a b => a ≤ b) := by
  rw [List.pairwise_iff_getElem]
  intro i j hi hj hij
  rw [compute_splits_length] at hi hj
  have h1 := compute_splits_getElem? h p i hi
  have h2 := compute_splits_getElem? h p j hj
  rw [List.getElem?_eq_getElem (by rw [compute_splits_length]; exact hi)] at h1
  rw [List.getElem?_eq_getElem (by rw [compute_splits_length]; exact hj)] at h2
  rw [Option.some.injEq] at h1 h2
  rw [h1, h2]
  exact band_start_mono h p (Nat.le_of_lt hij)

theorem compute_splits_mem_le (h p : Nat) (hp : 0 < p) {s : Nat}
    (hs : s ∈ compute_splits h p) : s ≤ h := by
  obtain ⟨i, hi, hgi⟩ := List.getElem_of_mem hs
  have h1 := compute_splits_getElem? h p i (by rw [compute_splits_length] at hi; exact hi)
  rw [List.getElem?_eq_getElem hi, Option.some.injEq] at h1
  rw [← hgi, h1]
  exact band_start_le h p hp (by rw [compute_splits_length] at hi; omega)

theorem compute_splits_head? (h p : Nat) (hp : 0 < p) :
    (compute_splits h p).head? = some 0 := by
  rw [List.head?_eq_getElem?, compute_splits_getElem? h p 0 hp]
  simp [band_start]

theorem par_loop_none_of_lt (cp : Coloring) (conv : WinToMandel) (w maxv ustride : Nat)
    (rs : List Nat) (data : List Nat) (endRow nstat : Nat) (hlt : nstat < rs.length) :
    par_loop cp conv w maxv ustride rs data endRow nstat = none := by
  induction rs generalizing data endRow nstat with
  | nil => simp at hlt
  | cons s rest ih =>
    rw [List.length_cons] at hlt
    simp only [par_loop]
    by_cases h1 : ustride * s ≤ data.length
    · rw [if_pos h1]
      by_cases h0 : nstat = 0
      · rw [if_pos h0]
      · rw [if_neg h0]
        cases hf : fill_rows cp conv w maxv ustride (data.drop (ustride * s)) (endRow - s) s with
        | none => rfl
        | some bp =>
          obtain ⟨b1, part⟩ := bp
          rw [ih (data.take (ustride * s)) s (nstat - 1) (by omega)]
    · rw [if_neg h1]

theorem par_loop_closed (cp : Coloring) (conv : WinToMandel) (w maxv ustride : Nat)
    (rs : List Nat) (data : List Nat) (endRow nstat : Nat)
    (hdesc : rs.Pairwise (fun a b => b ≤ a))
    (hbound : ∀ s ∈ rs, s ≤ endRow)
    (hlen : data.length = ustride * endRow)
    (hstat : rs.length ≤ nstat) :
    par_loop cp conv w maxv ustride rs data endRow nstat =
      some (true,
        data.take (ustride * (rs.getLast?.getD endRow)) ++
          fill_spec_rows cp conv w maxv ustride
            (data.drop (ustride * (rs.getLast?.getD endRow)))
            (endRow - rs.getLast?.getD endRow) (rs.getLast?.getD endRow)) := by
  induction rs generalizing data endRow nstat with
  | nil =>
    simp only [par_loop, List.getLast?_nil, Option.getD_none, Nat.sub_self]
    rw [show fill_spec_rows cp conv w maxv ustride (data.drop (ustride * endRow)) 0 endRow
        = data.drop (ustride * endRow) from rfl, List.take_append_drop]
  | cons s rest ih =>
    obtain ⟨hhead, hdesc'⟩ := List.pairwise_cons.mp hdesc
    have hse : s ≤ endRow := hbound s (List.mem_cons_self _ _)
    have h1 : ustride * s ≤ data.length := by
      rw [hlen]; exact Nat.mul_le_mul_left _ hse
    have h0 : nstat ≠ 0 := by
      rw [List.length_cons] at hstat; omega
    have hm2 : ustride * s ≤ ustride * endRow := Nat.mul_le_mul_left _ hse
    -- the tail band fill succeeds and produces its specification buffer
    have hfl : (endRow - s) * ustride ≤ (data.drop (ustride * s)).length := by
      rw [List.length_drop, hlen, Nat.sub_mul, Nat.mul_comm endRow ustride,
        Nat.mul_comm s ustride]
    have hfill := fill_rows_eq_spec cp conv w maxv ustride (data.drop (ustride * s))
      (endRow - s) s hfl
    -- the recursive call on the front part, by the induction hypothesis
    have htl : (data.take (ustride * s)).length = ustride * s := by
      rw [List.length_take, hlen]; omega
    have hrec := ih (data.take (ustride * s)) s (nstat - 1) hdesc' hhead htl
      (by rw [List.length_cons] at hstat; omega)
    -- name the start row of the lowest band handled by the tail of the list
    set low := rest.getLast?.getD s with hlowdef
    have hlow_le : low ≤ s := by
      cases hr : rest.getLast? with
      | none => simp [hlowdef, hr]
      | some a =>
        have ha : a ∈ rest := List.mem_of_mem_getLast? hr
        simp only [hlowdef, hr, Option.getD_some]
        exact hhead a ha
    have hlow_goal : (s :: rest).getLast?.getD endRow = low := by
      cases rest with
      | nil => simp [hlowdef]
      | cons r rest' =>
        rw [List.getLast?_cons_cons]
        cases hr : (r :: rest').getLast? with
        | none => exact absurd (List.getLast?_eq_none_iff.mp hr) (by simp)
        | some a => simp [hlowdef, List.getLast?_cons_cons, hr]
    have hm1 : ustride * low ≤ ustride * s := Nat.mul_le_mul_left _ hlow_le
    -- unfold one step of the loop
    simp only [par_loop, if_pos h1, if_neg h0]
    rw [hfill, hrec, hlow_goal]
    -- normalize the nested take/drop of the front part
    have hsub : ustride * s - ustride * low = (s - low) * ustride := by
      rw [Nat.sub_mul, Nat.mul_comm s ustride, Nat.mul_comm low ustride]
    rw [List.take_take, show ustride * low ⊓ (ustride * s) = ustride * low by omega,
      List.drop_take, hsub]
    have hback : List.drop (ustride * s) data
        = List.drop ((s - low) * ustride) (List.drop (ustride * low) data) := by
      rw [List.drop_drop, show ustride * low + (s - low) * ustride = ustride * s by
        rw [Nat.sub_mul, Nat.mul_comm s ustride, Nat.mul_comm low ustride]; omega]
    rw [hback]
    -- glue the two bands back together with the append lemma
    have hfrontlen : (List.take ((s - low) * ustride)
        (List.drop (ustride * low) data)).length = (s - low) * ustride := by
      rw [List.length_take, List.length_drop, hlen]
      have : (s - low) * ustride = ustride * s - ustride * low := hsub.symm
      omega
    have happ := fill_spec_rows_append cp conv w maxv ustride
      (List.take ((s - low) * ustride) (List.drop (ustride * low) data))
      (List.drop ((s - low) * ustride) (List.drop (ustride * low) data))
      (s - low) (endRow - s) low hfrontlen
    rw [List.take_append_drop, show s - low + (endRow - s) = endRow - low by omega,
      show low + (s - low) = s by omega] at happ
    simp only [List.append_assoc, Bool.and_self]
    rw [← happ]

theorem fill_parallel_eq_serial (parCount : Nat) (data : List Nat) (cp : Coloring)
    (w h maxv ustride : Nat) (mparams : Mapping) (hp1 : 1 ≤ parCount) (hp8 : parCount ≤ 8)
    (hlen : data.length = ustride * h) :
    fill_mandel_image_parallel parCount data cp w h maxv ustride mparams =
      fill_mandel_image data cp w h maxv ustride mparams := by
  have hp : 0 < parCount := hp1
  rw [fill_mandel_image_parallel, if_neg (by omega)]
  have hdesc : ((compute_splits h parCount).reverse).Pairwise (fun a b => b ≤ a) := by
    rw [List.pairwise_reverse]
    exact compute_splits_sorted h parCount
  have hbound : ∀ s ∈ (compute_splits h parCount).reverse, s ≤ h := by
    intro s hs
    exact compute_splits_mem_le h parCount hp (List.mem_reverse.mp hs)
  have hstat : ((compute_splits h parCount).reverse).length ≤ 8 := by
    rw [List.length_reverse, compute_splits_length]; exact hp8
  have hlow : ((compute_splits h parCount).reverse).getLast?.getD h = 0 := by
    rw [List.getLast?_reverse, compute_splits_head? h parCount hp]; rfl
  rw [par_loop_closed cp (WinToMandel.from_mapping mparams) w maxv ustride
    ((compute_splits h parCount).reverse) data h 8 hdesc hbound hlen hstat, hlow]
  rw [fill_mandel_image, fill_mandel_image_part, Nat.sub_zero,
    fill_rows_eq_spec cp (WinToMandel.from_mapping mparams) w maxv ustride data h 0
      (by rw [hlen, Nat.mul_comm])]
  simp

theorem mandel_loop_le (x y : ℚ) (fuel : Nat) (r i : ℚ) :
    mandel_loop x y fuel r i ≤ fuel := by
  induction fuel generalizing r i with
  | zero => exact Nat.le_refl 0
  | succ n ih =>
    rw [mandel_loop]
    split
    · omega
    · have := ih (r * r - i * i + x) (2 * r * i + y)
      omega

theorem mandel_loop_eq_iff (x y : ℚ) (fuel : Nat) (r i : ℚ) :
    mandel_loop x y fuel r i = fuel ↔
      ∀ k, k < fuel → mag_sq ((mandel_step x y)^[k + 1] (r, i)) < 4 := by
  induction fuel generalizing r i with
  | zero => simp [mandel_loop]
  | succ n ih =>
    constructor
    · intro heq k hk
      rw [mandel_loop] at heq
      by_cases hc : (2 * r * i + y) * (2 * r * i + y) +
          (r * r - i * i + x) * (r * r - i * i + x) ≥ 4
      · rw [if_pos hc] at heq
        omega
      · rw [if_neg hc] at heq
        have heq' : mandel_loop x y n (r * r - i * i + x) (2 * r * i + y) = n := by omega
        match k with
        | 0 =>
          have h1 : (mandel_step x y)^[0 + 1] (r, i) = mandel_step x y (r, i) := by simp
          rw [h1]
          simp only [mandel_step, mag_sq]
          exact not_le.mp hc
        | k + 1 =>
          have hrec := (ih (r * r - i * i + x) (2 * r * i + y)).mp heq' k (by omega)
          rw [Function.iterate_succ_apply]
          simpa [mandel_step] using hrec
    · intro hall
      have hc : ¬((2 * r * i + y) * (2 * r * i + y) +
          (r * r - i * i + x) * (r * r - i * i + x) ≥ 4) := by
        have h0 := hall 0 (by omega)
        simp only [Function.iterate_one, mandel_step, mag_sq] at h0
        exact not_le.mpr h0
      rw [mandel_loop, if_neg hc]
      have hn : mandel_loop x y n (r * r - i * i + x) (2 * r * i + y) = n := by
        rw [ih]
        intro k hk
        have hk1 := hall (k + 1) (by omega)
        rw [Function.iterate_succ_apply] at hk1
        simpa [mandel_step] using hk1
      omega

theorem band_size (h p i : Nat) :
    band_start h p (i + 1) - band_start h p i
      = if i < h % p then h / p + 1 else h / p := by
  simp only [band_start, Nat.succ_mul]
  generalize h / p = q
  generalize h % p = r
  by_cases hc : i < r
  · rw [if_pos hc, Nat.min_eq_left (by omega : i ≤ r),
      Nat.min_eq_left (by omega : i + 1 ≤ r)]
    omega
  · rw [if_neg hc, Nat.min_eq_right (by omega : r ≤ i),
      Nat.min_eq_right (by omega : r ≤ i + 1)]
    omega

theorem mono_interval_exists (f : Nat → Nat)
    (m r : Nat) (h0 : f 0 ≤ r) (hm : r < f m) :
    ∃ i, i < m ∧ f i ≤ r ∧ r < f (i + 1) := by
  induction m with
  | zero => omega
  | succ n ih =>
    by_cases hn : f n ≤ r
    · exact ⟨n, by omega, hn, hm⟩
    · obtain ⟨i, hi, h1, h2⟩ := ih (by omega)
      exact ⟨i, by omega, h1, h2⟩

theorem replace_by_last_request_some (r : MandelReq) (q : List MandelReq) :
    replace_by_last_request (some r) q = (some (q.getLast?.getD r), []) := by
  induction q generalizing r with
  | nil => rfl
  | cons a t ih =>
    rw [replace_by_last_request, ih a]
    cases t with
    | nil => rfl
    | cons b t' =>
      rw [List.getLast?_cons_cons]
      cases hr : (b :: t').getLast? with
      | none => exact absurd (List.getLast?_eq_none_iff.mp hr) (by simp)
      | some z => rfl

theorem make_mandel_image_invalid (request : MandelReq) (parCount : Nat)
    (h : request.params.is_valid = false) :
    make_mandel_image request parCount = some (none, 0) := by
  simp [make_mandel_image, h]

/-- C5: for h ≥ p > 0 the band-split computation produces p contiguous,
non-overlapping, gapless, ascending bands covering [0, h) with every row in
exactly one band: with base = h / p and extra = h % p, the first extra bands
have base + 1 rows and the rest base rows, so any two band sizes differ by at
most 1.  (The particular instance compute_splits 7 3 = [0, 3, 5] is checked in
the witness.) -/
theorem claim_C5 (h p : Nat) (hp : 0 < p) (hh : p ≤ h) :
    (compute_splits h p).length = p
    ∧ (∀ i, i < p → (compute_splits h p)[i]? = some (band_start h p i))
    ∧ band_start h p 0 = 0
    ∧ band_start h p p = h
    ∧ (∀ i, i < p → band_start h p (i + 1) - band_start h p i
        = if i < h % p then h / p + 1 else h / p)
    ∧ (∀ i j, i < p → j < p → band_start h p (j + 1) - band_start h p j
        ≤ (band_start h p (i + 1) - band_start h p i) + 1)
    ∧ (∀ i j, i < j → j ≤ p → band_start h p i < band_start h p j)
    ∧ (∀ r, r < h →
        ∃! i, i < p ∧ band_start h p i ≤ r ∧ r < band_start h p (i + 1)) := by
  have hq : 0 < h / p := Nat.div_pos hh hp
  refine ⟨compute_splits_length h p, fun i hi => compute_splits_getElem? h p i hi,
    by simp [band_start], band_start_top h p hp, fun i _ => band_size h p i, ?_, ?_, ?_⟩
  · intro i j hi hj
    rw [band_size, band_size]
    by_cases hci : i < h % p <;> by_cases hcj : j < h % p <;>
      simp only [hci, hcj, ite_true, ite_false] <;> omega
  · intro i j hij _
    exact band_start_strict_mono h p hq hij
  · intro r hr
    obtain ⟨i, hi, h1, h2⟩ := mono_interval_exists (band_start h p) p r
      (by simp [band_start]) (by rw [band_start_top h p hp]; exact hr)
    refine ⟨i, ⟨hi, h1, h2⟩, ?_⟩
    rintro j ⟨hj, hj1, hj2⟩
    by_contra hne
    rcases Nat.lt_or_ge j i with hlt | hge
    · have hm := band_start_mono h p (show j + 1 ≤ i by omega)
      omega
    · have hij : i < j := by omega
      have hm := band_start_mono h p (show i + 1 ≤ j by omega)
      omega

/-- Witness for C5 at h = 7, p = 3, including the spec's concrete instance
compute_splits 7 3 = [0, 3, 5]. -/
theorem claim_C5_witness :
    compute_splits 7 3 = [0, 3, 5]
    ∧ (compute_splits 7 3).length = 3
    ∧ band_start 7 3 3 = 7 :=
  ⟨by decide, (claim_C5 7 3 (by decide) (by decide)).1,
    (claim_C5 7 3 (by decide) (by decide)).2.2.2.1⟩

/-- C7: the escape-time kernel always terminates within max iterations (the
fuel of `mandel_loop` is structurally bounded by max), returns at most max,
and returns exactly max iff the orbit of (0, 0) under the quadratic step never
reaches squared magnitude ≥ 4 within max steps. -/
theorem claim_C7 (x y : ℚ) (max : Nat) :
    mandel_value x y max ≤ max
    ∧ (mandel_value x y max = max ↔
        ∀ k, k < max → mag_sq ((mandel_step x y)^[k + 1] (0, 0)) < 4) :=
  ⟨mandel_loop_le x y max 0 0, mandel_loop_eq_iff x y max 0 0⟩

/-- Witness for C7: the immediate-escape point (2, 0) is bounded by the cap,
and the never-escaping origin (0, 0) attains the cap. -/
theorem claim_C7_witness :
    mandel_value 2 0 5 ≤ 5 ∧ mandel_value 0 0 3 = 3 := by
  refine ⟨(claim_C7 2 0 5).1, (claim_C7 0 0 3).2.mpr ?_⟩
  intro k hk
  have hfix : (mandel_step 0 0)^[k + 1] ((0 : ℚ), (0 : ℚ)) = (0, 0) :=
    Function.iterate_fixed (by norm_num [mandel_step]) (k + 1)
  rw [hfix]
  norm_num [mag_sq]

/-- Counterexample to C4 as stated: the claim asserts that every coloring
variant returns its fixed cap color (the color of `get_color(max, max)`) for
every v ≥ max, but `BlackWhite::get_color` compares with `==` only, so
`get_color(3, 2)` falls through to the parity coloring (white) instead of the
cap gray `get_color(2, 2) = 0x808080`. -/
theorem claim_C4_counterexample :
    (2 : Nat) ≤ 3
    ∧ Coloring.get_color Coloring.blackWhite 3 2 = 0xffffff
    ∧ Coloring.get_color Coloring.blackWhite 2 2 = 0x808080
    ∧ Coloring.get_color Coloring.blackWhite 3 2
        ≠ Coloring.get_color Coloring.blackWhite 2 2 := by
  decide

/-- C4 as amended: the three modular schemes (Rgb18, RedBlue, RgbAlternating)
do return their fixed cap color — equal to get_color(max, max) — for every
v ≥ max; but BlackWhite returns its cap color 0x808080 exactly when v = max
and otherwise colors by parity even for v > max, and OldBlackWhite ignores max
entirely, always coloring by parity. -/
theorem claim_C4 (v max : Nat) :
    (max ≤ v →
      Coloring.get_color Coloring.rgb18 v max = 0x000000
      ∧ Coloring.get_color Coloring.redBlue v max = 0x404040
      ∧ Coloring.get_color Coloring.rgbAlternating v max = 0x000000
      ∧ Coloring.get_color Coloring.rgb18 v max
          = Coloring.get_color Coloring.rgb18 max max
      ∧ Coloring.get_color Coloring.redBlue v max
          = Coloring.get_color Coloring.redBlue max max
      ∧ Coloring.get_color Coloring.rgbAlternating v max
          = Coloring.get_color Coloring.rgbAlternating max max)
    ∧ Coloring.get_color Coloring.blackWhite v max
        = (if v = max then 0x808080 else if v % 2 = 1 then 0xffffff else 0x0)
    ∧ Coloring.get_color Coloring.oldBlackWhite v max
        = (if v % 2 = 1 then 0xffffff else 0x0) := by
  refine ⟨fun hvm => ?_, rfl, rfl⟩
  simp [Coloring.get_color, rgb18_get_color, redBlue_get_color,
    rgbAlternating_get_color, hvm]

/-- Witness for C4 (amended) at v = 5, max = 3. -/
theorem claim_C4_witness :
    (3 : Nat) ≤ 5
    ∧ Coloring.get_color Coloring.rgb18 5 3 = 0x000000
    ∧ Coloring.get_color Coloring.redBlue 5 3 = 0x404040 :=
  ⟨by decide, ((claim_C4 5 3).1 (by decide)).1, ((claim_C4 5 3).1 (by decide)).2.1⟩

/-- C6: with three requests already queued when the producer starts its loop
iteration, it receives the first, drains the rest keeping only the last, and
renders exactly that last request, sending exactly one reply built from that
request's fields; the two earlier requests are never rendered and get no
reply of their own. -/
theorem claim_C6 (parCount : Nat) (r1 r2 r3 : MandelReq) :
    producer_step parCount [r1, r2, r3] = render_request parCount r3
    ∧ replace_by_last_request (some r1) [r2, r3] = (some r3, []) :=
  ⟨rfl, rfl⟩

/-- Witness for C6 at concrete requests. -/
theorem claim_C6_witness :
    producer_step 1 [⟨⟨0, 0, 1, 1, 1, 1⟩, Coloring.rgb18⟩,
        ⟨⟨0, 0, 1, 1, 1, 1⟩, Coloring.redBlue⟩,
        ⟨⟨0, 0, 2, 2, 1, 1⟩, Coloring.blackWhite⟩]
      = render_request 1 ⟨⟨0, 0, 2, 2, 1, 1⟩, Coloring.blackWhite⟩ :=
  (claim_C6 1 ⟨⟨0, 0, 1, 1, 1, 1⟩, Coloring.rgb18⟩
    ⟨⟨0, 0, 1, 1, 1, 1⟩, Coloring.redBlue⟩
    ⟨⟨0, 0, 2, 2, 1, 1⟩, Coloring.blackWhite⟩).1

/-- Counterexample to C1 as stated: the claim asserts that for an invalid
Mapping the producer emits no reply of any kind, but one iteration of the
producer loop on an invalid request still sends exactly one `MandelReply`
(with `result = None` and `stride = 0`), because the `send_blocking` at
src/mandel_image.rs:294 is unconditional. -/
theorem claim_C1_counterexample :
    ({ cx := 0, cy := 0, scale := 0, iteration_depth := 100, win_width := 600,
        win_height := 600 } : Mapping).is_valid = false
    ∧ producer_step 8 [⟨⟨0, 0, 0, 100, 600, 600⟩, Coloring.rgb18⟩]
      = some (⟨⟨0, 0, 0, 100, 600, 600⟩, Coloring.rgb18⟩,
          { result := none, width := 600, height := 600, stride := 0 }) := by
  decide

/-- C1 as amended: for an invalid Mapping the render is skipped —
`make_mandel_image` returns `(None, 0)` before any buffer is allocated or any
fill code runs — and nothing panics, but the producer does emit exactly one
reply for the request, carrying `result = None` and `stride = 0`. -/
theorem claim_C1 (req : MandelReq) (parCount : Nat)
    (h : req.params.is_valid = false) :
    make_mandel_image req parCount = some (none, 0)
    ∧ producer_step parCount [req]
      = some (req, { result := none,
                     width := asI32 req.params.win_width,
                     height := asI32 req.params.win_height,
                     stride := 0 }) := by
  have hm := make_mandel_image_invalid req parCount h
  refine ⟨hm, ?_⟩
  show render_request parCount req = _
  rw [render_request, hm]
  rfl

/-- Witness for C1 (amended) at a concrete invalid mapping (scale = 0). -/
theorem claim_C1_witness :
    ({ cx := 0, cy := 0, scale := 0, iteration_depth := 1, win_width := 1,
        win_height := 1 } : Mapping).is_valid = false
    ∧ producer_step 1 [⟨⟨0, 0, 0, 1, 1, 1⟩, Coloring.blackWhite⟩]
      = some (⟨⟨0, 0, 0, 1, 1, 1⟩, Coloring.blackWhite⟩,
          { result := none, width := asI32 1, height := asI32 1,
            stride := 0 }) :=
  ⟨by decide, (claim_C1 ⟨⟨0, 0, 0, 1, 1, 1⟩, Coloring.blackWhite⟩ 1 (by decide)).2⟩

/-- Counterexample to C2 as stated: the claim asserts that a destination slice
shorter than `(h_end - h_start) * row_stride` makes the tile fill return
`false` without panicking, but on the empty slice with one assigned row and
stride 4 the row slicing `data[0..4]` is out of bounds, so the call panics
(`none`); the function body's only return statement is `return true`, so a
`false` return (`some (false, _)`) is impossible. -/
theorem claim_C2_counterexample :
    fill_mandel_image_part [] Coloring.blackWhite ⟨0, 0, 1⟩ 1 0 1 1 4 = none := by
  rfl

/-- C2 as amended: whenever the destination slice is shorter than
`(h_end - h_start) * row_stride` bytes, `fill_mandel_image_partial` panics on
the first row slice that exceeds the buffer (index out of range) instead of
returning `false`. -/
theorem claim_C2 (data : List Nat) (cp : Coloring) (conv : WinToMandel)
    (w h_start h_end maxv ustride : Nat)
    (hshort : data.length < (h_end - h_start) * ustride) :
    fill_mandel_image_part data cp conv w h_start h_end maxv ustride = none :=
  fill_rows_none cp conv w maxv ustride data (h_end - h_start) h_start hshort

/-- Witness for C2 (amended): the empty slice with one assigned row. -/
theorem claim_C2_witness :
    ([] : List Nat).length < (1 - 0) * 4
    ∧ fill_mandel_image_part [] Coloring.rgb18 ⟨0, 0, 1⟩ 1 0 1 1 4 = none :=
  ⟨by decide, claim_C2 [] Coloring.rgb18 ⟨0, 0, 1⟩ 1 0 1 1 4 (by decide)⟩

/-- C8: when the destination slice is long enough for its assigned rows, the
tile fill succeeds (returning true), keeps the buffer length unchanged, writes
within each assigned row only the first width*4 bytes — every pad byte at
offsets [width*4, row_stride) of an assigned row keeps the value it had before
the call — and leaves every byte at or beyond the assigned rows' range
untouched. -/
theorem claim_C8 (data : List Nat) (cp : Coloring) (conv : WinToMandel)
    (w h_start h_end maxv ustride : Nat)
    (hlen : (h_end - h_start) * ustride ≤ data.length) :
    ∃ out, fill_mandel_image_part data cp conv w h_start h_end maxv ustride
        = some (true, out)
      ∧ out.length = data.length
      ∧ (∀ dy j, dy < h_end - h_start → 4 * w ≤ j → j < ustride →
          out[dy * ustride + j]? = data[dy * ustride + j]?)
      ∧ (∀ pos, (h_end - h_start) * ustride ≤ pos → out[pos]? = data[pos]?) :=
  ⟨fill_spec_rows cp conv w maxv ustride data (h_end - h_start) h_start,
    fill_rows_eq_spec cp conv w maxv ustride data (h_end - h_start) h_start hlen,
    fill_spec_rows_length cp conv w maxv ustride data (h_end - h_start) h_start,
    fun dy j hdy hj1 hj2 => fill_spec_rows_frame_pad cp conv w maxv ustride data
      (h_end - h_start) h_start dy j hlen hdy hj1 hj2,
    fun pos hpos => fill_spec_rows_frame_tail cp conv w maxv ustride data
      (h_end - h_start) h_start pos hlen hpos⟩

/-- Witness for C8: one row of one pixel with stride 5 (one pad byte), over a
buffer of nonzero bytes so preservation is visible. -/
theorem claim_C8_witness :
    (1 - 0) * 5 ≤ ([9, 9, 9, 9, 9] : List Nat).length
    ∧ ∃ out, fill_mandel_image_part [9, 9, 9, 9, 9] Coloring.blackWhite
          ⟨0, 0, 1⟩ 1 0 1 1 5 = some (true, out)
        ∧ out.length = ([9, 9, 9, 9, 9] : List Nat).length
        ∧ (∀ dy j, dy < 1 - 0 → 4 * 1 ≤ j → j < 5 →
            out[dy * 5 + j]? = ([9, 9, 9, 9, 9] : List Nat)[dy * 5 + j]?)
        ∧ (∀ pos, (1 - 0) * 5 ≤ pos →
            out[pos]? = ([9, 9, 9, 9, 9] : List Nat)[pos]?) :=
  ⟨by decide, claim_C8 [9, 9, 9, 9, 9] Coloring.blackWhite ⟨0, 0, 1⟩ 1 0 1 1 5
    (by decide)⟩

/-- Counterexample to C9 as stated: the claim asserts the reply is dropped
rather than the producer ever waiting on a full reply channel, but the
producer uses `send_blocking` on the `bounded(1)` reply channel, and on a
full, open channel that call blocks until the consumer makes room — it is
neither dropped nor delivered immediately. -/
theorem claim_C9_counterexample :
    producer_reply_send false 1 = SendOutcome.blocked
    ∧ SendOutcome.blocked ≠ SendOutcome.droppedClosed
    ∧ SendOutcome.blocked ≠ SendOutcome.delivered := by
  decide

/-- C9 as amended: when the reply channel is closed the send returns an error
that the producer ignores (`let _ =`), dropping the reply without panic or
blocking; when the capacity-1 channel is empty the reply is delivered; but
when the channel is full and open, `send_blocking` blocks — the producer does
wait for the consumer in that state. -/
theorem claim_C9 (queueLen : Nat) :
    producer_reply_send true queueLen = SendOutcome.droppedClosed
    ∧ producer_reply_send false 0 = SendOutcome.delivered
    ∧ (1 ≤ queueLen → producer_reply_send false queueLen = SendOutcome.blocked) := by
  refine ⟨rfl, rfl, fun h1 => ?_⟩
  rw [producer_reply_send, send_blocking]
  rw [if_neg (by simp), if_neg (by rw [reply_channel_capacity]; omega)]

/-- Witness for C9 (amended) at queue length 1 (channel full). -/
theorem claim_C9_witness :
    (1 : Nat) ≤ 1 ∧ producer_reply_send false 1 = SendOutcome.blocked :=
  ⟨by decide, (claim_C9 1).2.2 (by decide)⟩

/-- Counterexample to C3 as stated: the claim quantifies over every worker
count P, but with P = 9 workers (and a valid 1×9 mapping, stride 4, the
buffer the caller would allocate) the parallel fill panics — the ninth
`statuses.split_at_mut(1)` runs off the fixed `vec![true; 8]` — and produces
no buffer at all, while the single-threaded fill succeeds. -/
theorem claim_C3_counterexample :
    ({ cx := 0, cy := 0, scale := 1, iteration_depth := 1, win_width := 1,
        win_height := 9 } : Mapping).is_valid = true
    ∧ fill_mandel_image_parallel 9 (List.replicate 36 0) Coloring.blackWhite
        1 9 1 4 ⟨0, 0, 1, 1, 1, 9⟩ = none
    ∧ fill_mandel_image (List.replicate 36 0) Coloring.blackWhite
        1 9 1 4 ⟨0, 0, 1, 1, 1, 9⟩ ≠ none := by
  refine ⟨by decide, ?_, ?_⟩
  · rw [fill_mandel_image_parallel, if_neg (by decide)]
    apply par_loop_none_of_lt
    rw [List.length_reverse, compute_splits_length]
    decide
  · rw [fill_mandel_image, fill_mandel_image_part, Nat.sub_zero,
      fill_rows_eq_spec _ _ _ _ _ _ _ _ (by simp)]
    simp

/-- C3 as amended: for every worker count P with 1 ≤ P ≤ 8 (the length of the
fixed per-band status vector), every coloring scheme, stride, mapping and
buffer of the allocated size, the byte buffer produced by the parallel fill is
byte-for-byte identical to the buffer produced by the single-threaded fill
over the same input (same success flag, same bytes); for P > 8 the parallel
fill panics instead (see C10). -/
theorem claim_C3 (parCount : Nat) (data : List Nat) (cp : Coloring)
    (w h maxv ustride : Nat) (mparams : Mapping)
    (hp1 : 1 ≤ parCount) (hp8 : parCount ≤ 8) (hlen : data.length = ustride * h) :
    fill_mandel_image_parallel parCount data cp w h maxv ustride mparams =
      fill_mandel_image data cp w h maxv ustride mparams :=
  fill_parallel_eq_serial parCount data cp w h maxv ustride mparams hp1 hp8 hlen

/-- Witness for C3 (amended) at a 1×1 window, depth 1, one worker. -/
theorem claim_C3_witness :
    ((1 : Nat) ≤ 1 ∧ (1 : Nat) ≤ 8 ∧ ([0, 0, 0, 0] : List Nat).length = 4 * 1)
    ∧ fill_mandel_image_parallel 1 [0, 0, 0, 0] Coloring.blackWhite 1 1 1 4
        ⟨0, 0, 1, 1, 1, 1⟩
      = fill_mandel_image [0, 0, 0, 0] Coloring.blackWhite 1 1 1 4
        ⟨0, 0, 1, 1, 1, 1⟩ :=
  ⟨⟨by decide, by decide, by decide⟩,
    claim_C3 1 [0, 0, 0, 0] Coloring.blackWhite 1 1 1 4 ⟨0, 0, 1, 1, 1, 1⟩
      (by decide) (by decide) (by decide)⟩

/-- C10: the parallel fill allocates a status vector of fixed length 8 (the
literal in its definition) regardless of the pool's thread count; on a buffer
of the allocated size it completes without panicking precisely for pools of
1 to 8 threads — for every thread count above 8, splitting off the ninth
per-band status slot panics and the whole call dies (`none`). -/
theorem claim_C10 (parCount : Nat) (data : List Nat) (cp : Coloring)
    (w h maxv ustride : Nat) (mparams : Mapping)
    (hlen : data.length = ustride * h) :
    (8 < parCount →
      fill_mandel_image_parallel parCount data cp w h maxv ustride mparams = none)
    ∧ (1 ≤ parCount → parCount ≤ 8 →
      ∃ out, fill_mandel_image_parallel parCount data cp w h maxv ustride mparams
        = some (true, out)) := by
  constructor
  · intro h8
    rw [fill_mandel_image_parallel, if_neg (by omega)]
    apply par_loop_none_of_lt
    rw [List.length_reverse, compute_splits_length]
    omega
  · intro hp1 hp8
    refine ⟨fill_spec_rows cp (WinToMandel.from_mapping mparams) w maxv ustride data h 0,
      ?_⟩
    rw [fill_parallel_eq_serial parCount data cp w h maxv ustride mparams hp1 hp8 hlen,
      fill_mandel_image, fill_mandel_image_part, Nat.sub_zero,
      fill_rows_eq_spec cp (WinToMandel.from_mapping mparams) w maxv ustride data h 0
        (by rw [hlen, Nat.mul_comm])]

/-- Witness for C10: with a 1-row buffer of the allocated size, 9 workers
panic while 1 worker succeeds. -/
theorem claim_C10_witness :
    (([0, 0, 0, 0] : List Nat).length = 4 * 1 ∧ (8 : Nat) < 9
      ∧ (1 : Nat) ≤ 1 ∧ (1 : Nat) ≤ 8)
    ∧ fill_mandel_image_parallel 9 [0, 0, 0, 0] Coloring.rgb18 1 1 1 4
        ⟨0, 0, 1, 1, 1, 1⟩ = none
    ∧ (∃ out, fill_mandel_image_parallel 1 [0, 0, 0, 0] Coloring.rgb18 1 1 1 4
        ⟨0, 0, 1, 1, 1, 1⟩ = some (true, out)) :=
  ⟨⟨by decide, by decide, by decide, by decide⟩,
    (claim_C10 9 [0, 0, 0, 0] Coloring.rgb18 1 1 1 4 ⟨0, 0, 1, 1, 1, 1⟩
      (by decide)).1 (by decide),
    (claim_C10 1 [0, 0, 0, 0] Coloring.rgb18 1 1 1 4 ⟨0, 0, 1, 1, 1, 1⟩
      (by decide)).2 (by decide) (by decide)⟩
